import Mathlib

/-!
# Verification of the TileDB `Reader` read path (`tiledb/sm/query/reader.h`)

A shallow embedding of the data model and operations of the `Reader` class.
The repository snapshot contains only the header `reader.h`: the structs and
inline constructors there are embedded directly from the source; for the
member functions only declared there (their bodies live in the missing
`reader.cc`), the definitions below are modelled from the specification's
description of each operation, as marked in their doc comments.

Machine integers (`uint64_t`, `unsigned`, `int`) are modelled as `Nat`/`Int`;
the quantities involved (indices, counts, byte sizes) never approach overflow
in the algorithms at hand, and no arithmetic here wraps.
-/

namespace TileDB

/- ********************************* -/
/-      READ STATE (C9)              -/
/- ********************************* -/

/-- A subarray: one `(low, high)` bound pair per dimension (closed ranges),
embedding the `void* subarray_` of the source, whose payload is `2 * dim_num`
coordinates of the domain type `T`. -/
abbrev Subarray := List (Int × Int)

/-- Embeds `struct ReadState` of `reader.h`: the index `idx_` of the partition
to be processed next, the original subarray, and the subarray partitions. -/
structure ReadState where
  idx_ : Nat
  subarray_ : Subarray
  subarray_partitions_ : List Subarray

/-- Modelled from the spec: the body of `Reader::done` is missing from the
snapshot (only declared in `reader.h`); the spec states `done` is true iff all
partitions have been processed, i.e. `idx == partitions.len()`. -/
def done (r : ReadState) : Bool :=
  r.idx_ == r.subarray_partitions_.length

/-- Modelled from the spec: the body of `Reader::next_subarray_partition` is
missing from the snapshot; the spec states it advances the partition cursor. -/
def next_subarray_partition (r : ReadState) : ReadState :=
  { r with idx_ := r.idx_ + 1 }

/- ********************************* -/
/-      COORDINATE SLAB FILL (C8)    -/
/- ********************************* -/

/-- Advance the last dimension of a coordinate tuple by `i`. -/
def incLast : List Int → Nat → List Int
  | [], _ => []
  | [x], i => [x + (i : Int)]
  | x :: y :: xs, i => x :: incLast (y :: xs) i

/-- Advance the first dimension of a coordinate tuple by `i`. -/
def incFirst : List Int → Nat → List Int
  | [], _ => []
  | x :: xs, i => (x + (i : Int)) :: xs

/-- Modelled from the spec: the body of `Reader::fill_coords_row_slab` is
missing from the snapshot; the spec states a row-major slab fill writes `num`
contiguous coordinates from the starting coordinate, advancing the last
dimension (the header's own example: start `[3,1]`, `num = 3` writes
`[3,1], [3,2], [3,3]`). -/
def fill_coords_row_slab (start : List Int) (num : Nat) : List (List Int) :=
  (List.range num).map (incLast start)

/-- Modelled from the spec: the body of `Reader::fill_coords_col_slab` is
missing from the snapshot; the spec states a column-major slab fill writes
`num` contiguous coordinates from the starting coordinate, advancing the
first dimension. -/
def fill_coords_col_slab (start : List Int) (num : Nat) : List (List Int) :=
  (List.range num).map (incFirst start)

theorem incLast_zero (c : List Int) : incLast c 0 = c := by
  induction c with
  | nil => rfl
  | cons x xs ih =>
    cases xs with
    | nil => simp [incLast]
    | cons y ys => simpa [incLast] using ih

theorem incFirst_zero (c : List Int) : incFirst c 0 = c := by
  cases c <;> simp [incFirst]

theorem incLast_ne_nil (y : Int) (ys : List Int) (k : Nat) :
    incLast (y :: ys) k ≠ [] := by
  cases ys <;> simp [incLast]

theorem incLast_cons (x : Int) (l : List Int) (i : Nat) (h : l ≠ []) :
    incLast (x :: l) i = x :: incLast l i := by
  cases l with
  | nil => exact absurd rfl h
  | cons y ys => rfl

theorem incLast_succ (c : List Int) (k : Nat) :
    incLast c (k + 1) = incLast (incLast c k) 1 := by
  induction c with
  | nil => rfl
  | cons x xs ih =>
    cases xs with
    | nil => simp [incLast]; ring
    | cons y ys =>
      rw [incLast_cons x (y :: ys) (k + 1) (by simp),
        incLast_cons x (y :: ys) k (by simp), ih,
        incLast_cons x (incLast (y :: ys) k) 1 (incLast_ne_nil y ys k)]

theorem incFirst_succ (c : List Int) (k : Nat) :
    incFirst c (k + 1) = incFirst (incFirst c k) 1 := by
  cases c with
  | nil => rfl
  | cons x xs => simp [incFirst]; ring

/-- C8: the slab-fill operations write `num` contiguous coordinates beginning
at the starting coordinate `c`: the `k`-th written coordinate advances the
last (row-major) resp. first (column-major) dimension of `c` by `k`; in
particular the first written coordinate is `c` itself and each successive
coordinate increments that dimension once more. -/
theorem fill_coords_slab_correct (c : List Int) (num : Nat) :
    ((fill_coords_row_slab c num).length = num ∧
      (∀ k (hk : k < (fill_coords_row_slab c num).length),
        (fill_coords_row_slab c num)[k] = incLast c k) ∧
      (∀ h0 : 0 < (fill_coords_row_slab c num).length,
        (fill_coords_row_slab c num)[0] = c) ∧
      (∀ k (h1 : k < (fill_coords_row_slab c num).length)
          (h2 : k + 1 < (fill_coords_row_slab c num).length),
        (fill_coords_row_slab c num)[k + 1] =
          incLast ((fill_coords_row_slab c num)[k]) 1)) ∧
    ((fill_coords_col_slab c num).length = num ∧
      (∀ k (hk : k < (fill_coords_col_slab c num).length),
        (fill_coords_col_slab c num)[k] = incFirst c k) ∧
      (∀ h0 : 0 < (fill_coords_col_slab c num).length,
        (fill_coords_col_slab c num)[0] = c) ∧
      (∀ k (h1 : k < (fill_coords_col_slab c num).length)
          (h2 : k + 1 < (fill_coords_col_slab c num).length),
        (fill_coords_col_slab c num)[k + 1] =
          incFirst ((fill_coords_col_slab c num)[k]) 1)) := by
  constructor
  · refine ⟨by simp [fill_coords_row_slab], ?_, ?_, ?_⟩
    · intro k hk
      simp [fill_coords_row_slab]
    · intro h0
      simp [fill_coords_row_slab, incLast_zero]
    · intro k h1 h2
      simpa [fill_coords_row_slab] using incLast_succ c k
  · refine ⟨by simp [fill_coords_col_slab], ?_, ?_, ?_⟩
    · intro k hk
      simp [fill_coords_col_slab]
    · intro h0
      simp [fill_coords_col_slab, incFirst_zero]
    · intro k h1 h2
      simpa [fill_coords_col_slab] using incFirst_succ c k

/-- C9: `done` returns true iff the partition index `idx_` equals the number
of subarray partitions, and `next_subarray_partition` advances `idx_` by one
(leaving the partitions themselves unchanged). -/
theorem done_next_subarray_partition_correct (r : ReadState) :
    (done r = true ↔ r.idx_ = r.subarray_partitions_.length) ∧
    (next_subarray_partition r).idx_ = r.idx_ + 1 ∧
    (next_subarray_partition r).subarray_partitions_ = r.subarray_partitions_ := by
  refine ⟨?_, rfl, rfl⟩
  simp [done]

/- ********************************* -/
/-      BUFFER-SIZE RESET (C5)       -/
/- ********************************* -/

/-- The buffer sizes relevant to one query: the sizes initially set by the
user (against which the subarray partitions were computed) and the sizes
currently in effect, one entry per user buffer. -/
structure QueryBuffers where
  initSizes : List Nat
  curSizes : List Nat

/-- Modelled from the spec: the body of `Reader::check_reset_buffer_sizes` is
missing from the snapshot; per its header doc comment and the spec, any buffer
sizes reset mid-query must be at least as large, entry by entry, as the
initially set buffer sizes. Returns `true` when the new sizes pass the check. -/
def check_reset_buffer_sizes (init new : List Nat) : Bool :=
  init.length == new.length &&
    (init.zip new).all (fun q => q.1 ≤ q.2)

/-- Modelled from the spec: resetting the buffer sizes of an in-progress query
installs the new sizes only when `check_reset_buffer_sizes` passes; on failure
the query state is returned unchanged (the `Bool` is `true` on success,
standing for an ok `Status` versus the invalid-reset error). -/
def reset_buffer_sizes (q : QueryBuffers) (new : List Nat) : QueryBuffers × Bool :=
  if check_reset_buffer_sizes q.initSizes new then
    ({ q with curSizes := new }, true)
  else
    (q, false)

theorem zip_all_le_iff (a b : List Nat) (hlen : a.length = b.length) :
    ((a.zip b).all (fun q => q.1 ≤ q.2) = true) ↔
      ∀ i (hi : i < a.length) (hi' : i < b.length), a[i] ≤ b[i] := by
  induction a generalizing b with
  | nil => cases b <;> simp
  | cons x xs ih =>
    cases b with
    | nil => simp at hlen
    | cons y ys =>
      simp only [List.zip_cons_cons, List.all_cons, Bool.and_eq_true, decide_eq_true_eq]
      rw [ih ys (by simpa using hlen)]
      constructor
      · rintro ⟨hxy, h⟩ i hi hi'
        cases i with
        | zero => simpa using hxy
        | succ j =>
          have := h j (by simpa using hi) (by simpa using hi')
          simpa using this
      · intro h
        refine ⟨by simpa using h 0 (by simp) (by simp), ?_⟩
        intro i hi hi'
        have := h (i + 1) (by simpa using hi) (by simpa using hi')
        simpa using this

/-- C5: resetting the buffer sizes of an in-progress query succeeds iff the
new sizes correspond one-to-one with the initial sizes and each new size is
at least the corresponding initial size; on any violation the check fails
and the query state is left unchanged. -/
theorem check_reset_buffer_sizes_correct (q : QueryBuffers) (new : List Nat) :
    (check_reset_buffer_sizes q.initSizes new = true ↔
      (q.initSizes.length = new.length ∧
        ∀ i (hi : i < q.initSizes.length) (hi' : i < new.length),
          q.initSizes[i] ≤ new[i])) ∧
    ((reset_buffer_sizes q new).2 = true ↔
      check_reset_buffer_sizes q.initSizes new = true) ∧
    (check_reset_buffer_sizes q.initSizes new = false →
      (reset_buffer_sizes q new).1 = q) ∧
    (check_reset_buffer_sizes q.initSizes new = true →
      (reset_buffer_sizes q new).1.curSizes = new ∧
      (reset_buffer_sizes q new).1.initSizes = q.initSizes) := by
  refine ⟨?_, ?_, ?_, ?_⟩
  · constructor
    · intro h
      simp only [check_reset_buffer_sizes, Bool.and_eq_true, beq_iff_eq] at h
      obtain ⟨hlen, hall⟩ := h
      exact ⟨hlen, (zip_all_le_iff _ _ hlen).mp hall⟩
    · rintro ⟨hlen, h⟩
      simp only [check_reset_buffer_sizes, Bool.and_eq_true, beq_iff_eq]
      exact ⟨hlen, (zip_all_le_iff _ _ hlen).mpr h⟩
  · unfold reset_buffer_sizes
    by_cases h : check_reset_buffer_sizes q.initSizes new = true <;> simp [h]
  · intro h
    simp [reset_buffer_sizes, h]
  · intro h
    simp [reset_buffer_sizes, h]

/- ********************************* -/
/-      OVERLAPPING TILE (C10)       -/
/- ********************************* -/

/-- Embeds class `Tile` as an opaque placeholder: only default-constructed
tiles appear in the `OverlappingTile` constructor. -/
inductive Tile where
  | default_
deriving DecidableEq

/-- Embeds `typedef std::pair<Tile, Tile> TilePair` of `reader.h`. -/
abbrev TilePair := Tile × Tile

/-- The special coordinates attribute name `constants::coords` (declared in
the missing `tiledb/sm/misc/constants.h`; its concrete value is irrelevant
here, only its identity as a distinguished key). -/
def coordsName : String := "__coords"

/-- One assignment `m[k] = v` on a `std::unordered_map` modelled as an
association list: replace the value at `k` when present, insert otherwise.
(The real container is unordered; the list order carries no meaning and no
theorem below depends on it.) -/
def mapAssign (m : List (String × TilePair)) (k : String) (v : TilePair) :
    List (String × TilePair) :=
  if m.any (fun p => p.1 == k) then
    m.map (fun p => if p.1 == k then (k, v) else p)
  else
    m ++ [(k, v)]

/-- Embeds `struct OverlappingTile` of `reader.h`. -/
structure OverlappingTile where
  fragment_idx_ : Nat
  tile_idx_ : Nat
  full_overlap_ : Bool
  attr_tiles_ : List (String × TilePair)

/-- Embeds the `OverlappingTile` constructor of `reader.h` (source code
present in the header): first `attr_tiles_[constants::coords]` is assigned a
default tile pair, then each requested attribute other than the coordinates
is assigned a default tile pair. -/
def mkOverlappingTile (fragment_idx : Nat) (tile_idx : Nat)
    (attributes : List String) (full_overlap : Bool) : OverlappingTile :=
  let m0 := mapAssign [] coordsName (Tile.default_, Tile.default_)
  let m := attributes.foldl
    (fun m attr =>
      if attr ≠ coordsName then mapAssign m attr (Tile.default_, Tile.default_)
      else m)
    m0
  ⟨fragment_idx, tile_idx, full_overlap, m⟩

/-- The attribute names present in an attribute-tile map. -/
def mapKeys (m : List (String × TilePair)) : List String :=
  m.map Prod.fst

theorem mapKeys_mapAssign (m : List (String × TilePair)) (k : String)
    (v : TilePair) :
    mapKeys (mapAssign m k v) =
      if k ∈ mapKeys m then mapKeys m else mapKeys m ++ [k] := by
  by_cases h : k ∈ mapKeys m
  · have hany : m.any (fun p => p.1 == k) = true := by
      simp only [mapKeys, List.mem_map] at h
      obtain ⟨p, hp, hpk⟩ := h
      simp only [List.any_eq_true]
      exact ⟨p, hp, by simp [hpk]⟩
    simp only [mapAssign, hany, if_true, h, if_pos]
    simp only [mapKeys, List.map_map]
    apply List.map_congr_left
    intro p hp
    by_cases hpk : p.1 = k <;> simp [hpk]
  · have hany : m.any (fun p => p.1 == k) = false := by
      simp only [List.any_eq_false]
      intro p hp
      simp only [beq_iff_eq]
      intro hpk
      exact h (by simp only [mapKeys, List.mem_map]; exact ⟨p, hp, hpk⟩)
    rw [if_neg h]
    simp [mapAssign, hany, mapKeys]

theorem mapKeys_mapAssign_mem (m : List (String × TilePair)) (k a : String)
    (v : TilePair) :
    a ∈ mapKeys (mapAssign m k v) ↔ a ∈ mapKeys m ∨ a = k := by
  rw [mapKeys_mapAssign]
  by_cases h : k ∈ mapKeys m
  · simp only [h, if_true]
    constructor
    · exact Or.inl
    · rintro (ha | rfl)
      · exact ha
      · exact h
  · simp [h]

theorem mapKeys_mapAssign_nodup (m : List (String × TilePair)) (k : String)
    (v : TilePair) (hm : (mapKeys m).Nodup) :
    (mapKeys (mapAssign m k v)).Nodup := by
  rw [mapKeys_mapAssign]
  by_cases h : k ∈ mapKeys m
  · simpa [h] using hm
  · simp only [h, if_false]
    simp [List.nodup_append, hm, h]

theorem attrFold_mem (attrs : List String) (m : List (String × TilePair))
    (a : String) :
    a ∈ mapKeys (attrs.foldl
        (fun m attr =>
          if attr ≠ coordsName then
            mapAssign m attr (Tile.default_, Tile.default_)
          else m) m) ↔
      a ∈ mapKeys m ∨ (a ∈ attrs ∧ a ≠ coordsName) := by
  induction attrs generalizing m with
  | nil => simp
  | cons x xs ih =>
    simp only [List.foldl_cons]
    by_cases hx : x = coordsName
    · rw [if_neg (by simp [hx])]
      rw [ih]
      constructor
      · rintro (hm | ⟨hxs, hne⟩)
        · exact Or.inl hm
        · exact Or.inr ⟨List.mem_cons_of_mem _ hxs, hne⟩
      · rintro (hm | ⟨hmem, hne⟩)
        · exact Or.inl hm
        · rcases List.mem_cons.mp hmem with rfl | hxs
          · exact absurd hx hne
          · exact Or.inr ⟨hxs, hne⟩
    · rw [if_pos (by simp [hx])]
      rw [ih, mapKeys_mapAssign_mem]
      constructor
      · rintro ((hm | rfl) | ⟨hxs, hne⟩)
        · exact Or.inl hm
        · exact Or.inr ⟨List.mem_cons_self _ _, hx⟩
        · exact Or.inr ⟨List.mem_cons_of_mem _ hxs, hne⟩
      · rintro (hm | ⟨hmem, hne⟩)
        · exact Or.inl (Or.inl hm)
        · rcases List.mem_cons.mp hmem with rfl | hxs
          · exact Or.inl (Or.inr rfl)
          · exact Or.inr ⟨hxs, hne⟩

theorem attrFold_nodup (attrs : List String) (m : List (String × TilePair))
    (hm : (mapKeys m).Nodup) :
    (mapKeys (attrs.foldl
        (fun m attr =>
          if attr ≠ coordsName then
            mapAssign m attr (Tile.default_, Tile.default_)
          else m) m)).Nodup := by
  induction attrs generalizing m with
  | nil => simpa
  | cons x xs ih =>
    simp only [List.foldl_cons]
    by_cases hx : x = coordsName
    · rw [if_neg (by simp [hx])]
      exact ih m hm
    · rw [if_pos (by simp [hx])]
      exact ih _ (mapKeys_mapAssign_nodup m x _ hm)

/-- C10: a freshly constructed `OverlappingTile` always holds a tile pair for
the special coordinates attribute, even when the coordinates are not among
the requested attributes; it holds exactly one tile pair for each distinct
requested non-coordinates attribute; and it holds nothing else. -/
theorem mkOverlappingTile_correct (f t : Nat) (attrs : List String)
    (fo : Bool) :
    coordsName ∈ mapKeys (mkOverlappingTile f t attrs fo).attr_tiles_ ∧
    (∀ a ∈ attrs, a ≠ coordsName →
      (mapKeys (mkOverlappingTile f t attrs fo).attr_tiles_).count a = 1) ∧
    (∀ a ∈ mapKeys (mkOverlappingTile f t attrs fo).attr_tiles_,
      a = coordsName ∨ a ∈ attrs) ∧
    (mapKeys (mkOverlappingTile f t attrs fo).attr_tiles_).count coordsName
      = 1 := by
  have hm0 : mapKeys (mapAssign [] coordsName (Tile.default_, Tile.default_))
      = [coordsName] := by
    simp [mapAssign, mapKeys]
  have hmem : ∀ a, a ∈ mapKeys (mkOverlappingTile f t attrs fo).attr_tiles_ ↔
      a = coordsName ∨ (a ∈ attrs ∧ a ≠ coordsName) := by
    intro a
    unfold mkOverlappingTile
    rw [attrFold_mem, hm0]
    simp
  have hnd : (mapKeys (mkOverlappingTile f t attrs fo).attr_tiles_).Nodup := by
    unfold mkOverlappingTile
    exact attrFold_nodup attrs _ (by rw [hm0]; simp)
  refine ⟨?_, ?_, ?_, ?_⟩
  · exact (hmem coordsName).mpr (Or.inl rfl)
  · intro a ha hne
    rw [List.count_eq_one_of_mem hnd ((hmem a).mpr (Or.inr ⟨ha, hne⟩))]
  · intro a ha
    rcases (hmem a).mp ha with h | ⟨h, _⟩
    · exact Or.inl h
    · exact Or.inr h
  · rw [List.count_eq_one_of_mem hnd ((hmem coordsName).mpr (Or.inl rfl))]

/- ********************************* -/
/-      SUBARRAY PARTITIONER (C4)    -/
/- ********************************* -/

/-- The error produced when partitioning cannot make progress. -/
inductive PartError where
  | bufferTooSmall
deriving DecidableEq

/-- `true` when the subarray is empty (some dimension has an empty range). -/
def saEmpty (s : Subarray) : Bool :=
  s.any (fun q => q.2 < q.1)

/-- The number of coordinates of one dimension's range. -/
def extent (q : Int × Int) : Nat :=
  (q.2 + 1 - q.1).toNat

/-- The number of cells in a subarray. -/
def cellCount (s : Subarray) : Nat :=
  (s.map extent).prod

/-- The estimated sizes fit the buffer sizes, attribute by attribute. -/
def fits (est bufs : List Nat) : Bool :=
  est.length == bufs.length && (est.zip bufs).all (fun q => q.1 ≤ q.2)

/-- The largest per-dimension extent of a subarray. -/
def maxExtent (s : Subarray) : Nat :=
  (s.map extent).foldr max 0

/-- The dimension along which to bisect: the first one of maximal extent. -/
def splitDim (s : Subarray) : Nat :=
  (s.map extent).indexOf (maxExtent s)

/-- The lower half of bisecting a subarray along its longest dimension. -/
def bisectLo (s : Subarray) : Subarray :=
  let d := splitDim s
  let q := s.getD d (0, 0)
  let mid := q.1 + ((extent q - 1) / 2 : Nat)
  s.set d (q.1, mid)

/-- The upper half of bisecting a subarray along its longest dimension. -/
def bisectHi (s : Subarray) : Subarray :=
  let d := splitDim s
  let q := s.getD d (0, 0)
  let mid := q.1 + ((extent q - 1) / 2 : Nat)
  s.set d (mid + 1, q.2)

theorem foldr_max_mem (l : List Nat) (h : l ≠ []) : l.foldr max 0 ∈ l := by
  induction l with
  | nil => exact absurd rfl h
  | cons x xs ih =>
    cases xs with
    | nil => simp
    | cons y ys =>
      rcases Nat.le_total x ((y :: ys).foldr max 0) with hle | hle
      · simp only [List.foldr_cons] at *
        rw [Nat.max_eq_right hle]
        exact List.mem_cons_of_mem _ (ih (by simp))
      · simp only [List.foldr_cons] at *
        rw [Nat.max_eq_left hle]
        exact List.mem_cons_self _ _

theorem le_foldr_max (l : List Nat) (x : Nat) (hx : x ∈ l) :
    x ≤ l.foldr max 0 := by
  induction l with
  | nil => simp at hx
  | cons y ys ih =>
    rcases List.mem_cons.mp hx with rfl | h
    · simp only [List.foldr_cons]
      exact Nat.le_max_left _ _
    · simp only [List.foldr_cons]
      exact Nat.le_trans (ih h) (Nat.le_max_right _ _)

theorem two_le_mem_of_two_le_prod (l : List Nat) (h : 2 ≤ l.prod) :
    ∃ x ∈ l, 2 ≤ x := by
  induction l with
  | nil => simp at h
  | cons x xs ih =>
    by_cases hx : 2 ≤ x
    · exact ⟨x, List.mem_cons_self _ _, hx⟩
    · have hx1 : x ≤ 1 := by omega
      have : 2 ≤ xs.prod := by
        simp only [List.prod_cons] at h
        calc 2 ≤ x * xs.prod := h
          _ ≤ 1 * xs.prod := Nat.mul_le_mul_right _ hx1
          _ = xs.prod := Nat.one_mul _
      obtain ⟨y, hy, hy2⟩ := ih this
      exact ⟨y, List.mem_cons_of_mem _ hy, hy2⟩

theorem splitDim_lt_length (s : Subarray) (h2 : 2 ≤ cellCount s) :
    splitDim s < s.length := by
  have hne : s ≠ [] := by
    intro h
    rw [h] at h2
    simp [cellCount] at h2
  have hmem : maxExtent s ∈ s.map extent :=
    foldr_max_mem _ (by simpa using hne)
  have := List.indexOf_lt_length.mpr hmem
  simpa [splitDim] using this

theorem extent_splitDim (s : Subarray) (h2 : 2 ≤ cellCount s) :
    extent (s.getD (splitDim s) (0, 0)) = maxExtent s := by
  have hd := splitDim_lt_length s h2
  have hd' : (s.map extent).indexOf (maxExtent s) < (s.map extent).length := by
    simpa [splitDim] using hd
  have hget := List.getElem_indexOf hd'
  rw [List.getElem_map] at hget
  rw [List.getD_eq_getElem s (0, 0) hd]
  simpa [splitDim] using hget

theorem two_le_maxExtent (s : Subarray) (h2 : 2 ≤ cellCount s) :
    2 ≤ maxExtent s := by
  obtain ⟨q, hq, hq2⟩ := two_le_mem_of_two_le_prod (s.map extent) h2
  exact Nat.le_trans hq2 (le_foldr_max _ _ hq)

theorem one_le_extent_of_not_empty (s : Subarray) (h : saEmpty s = false)
    (q : Int × Int) (hq : q ∈ s) : 1 ≤ extent q := by
  have : ¬ (q.2 < q.1) := by
    simp only [saEmpty, List.any_eq_false] at h
    have := h q hq
    simpa using this
  simp only [extent]
  omega

theorem cellCount_set_lt (s : Subarray) (d : Nat) (hd : d < s.length)
    (hne : saEmpty s = false) (q' : Int × Int)
    (hlt : extent q' < extent s[d]) :
    cellCount (s.set d q') < cellCount s := by
  have hmap : (s.set d q').map extent = (s.map extent).set d (extent q') :=
    List.map_set
  have hd' : d < (s.map extent).length := by simpa using hd
  have hprod := List.prod_set (s.map extent) d (extent q')
  rw [if_pos hd'] at hprod
  have hsplit : (s.map extent).prod =
      ((s.map extent).take d).prod * (s.map extent)[d] *
        ((s.map extent).drop (d + 1)).prod := by
    have h1 := List.prod_take_mul_prod_drop (s.map extent) (d + 1)
    have h2 : (s.map extent).take (d + 1) =
        (s.map extent).take d ++ [(s.map extent)[d]] := by
      rw [List.take_succ]
      simp [List.getElem?_eq_getElem hd']
    rw [h2] at h1
    simp only [List.prod_append, List.prod_cons, List.prod_nil, mul_one] at h1
    exact h1.symm
  have hget : (s.map extent)[d] = extent s[d] := List.getElem_map extent
  have hp1 : 0 < ((s.map extent).take d).prod := by
    apply List.prod_pos
    intro x hx
    have hx' : x ∈ s.map extent := List.mem_of_mem_take hx
    obtain ⟨q, hq, rfl⟩ := List.mem_map.mp hx'
    exact one_le_extent_of_not_empty s hne q hq
  have hp2 : 0 < ((s.map extent).drop (d + 1)).prod := by
    apply List.prod_pos
    intro x hx
    have hx' : x ∈ s.map extent := List.mem_of_mem_drop hx
    obtain ⟨q, hq, rfl⟩ := List.mem_map.mp hx'
    exact one_le_extent_of_not_empty s hne q hq
  simp only [cellCount, hmap, hprod, hsplit, hget]
  exact mul_lt_mul_of_pos_right (mul_lt_mul_of_pos_left hlt hp1) hp2

theorem cellCount_bisectLo_lt (s : Subarray) (hne : saEmpty s = false)
    (h2 : 2 ≤ cellCount s) : cellCount (bisectLo s) < cellCount s := by
  have hd := splitDim_lt_length s h2
  have hext := extent_splitDim s h2
  have hmax := two_le_maxExtent s h2
  have hgetD : s.getD (splitDim s) (0, 0) = s[splitDim s] :=
    List.getD_eq_getElem s (0, 0) hd
  apply cellCount_set_lt s (splitDim s) hd hne
  rw [← hgetD]
  set q := s.getD (splitDim s) (0, 0) with hq
  have he : extent q = maxExtent s := hext
  simp only [extent] at he ⊢
  omega

theorem cellCount_bisectHi_lt (s : Subarray) (hne : saEmpty s = false)
    (h2 : 2 ≤ cellCount s) : cellCount (bisectHi s) < cellCount s := by
  have hd := splitDim_lt_length s h2
  have hext := extent_splitDim s h2
  have hmax := two_le_maxExtent s h2
  have hgetD : s.getD (splitDim s) (0, 0) = s[splitDim s] :=
    List.getD_eq_getElem s (0, 0) hd
  apply cellCount_set_lt s (splitDim s) hd hne
  rw [← hgetD]
  set q := s.getD (splitDim s) (0, 0) with hq
  have he : extent q = maxExtent s := hext
  simp only [extent] at he ⊢
  omega

/-- Modelled from the spec: the body of `Reader::compute_subarray_partitions`
is missing from the snapshot; per the spec the subarray is recursively
bisected along its longest-extent dimension, estimating per-partition result
sizes (the estimator `est` is the abstract per-attribute size estimate drawn
from fragment metadata): a partition whose estimate fits the buffer sizes is
accepted, an empty partition is dropped, and a singleton-cell partition that
still exceeds capacity fails with the buffer-too-small error. -/
def compute_subarray_partitions (est : Subarray → List Nat) (bufs : List Nat)
    (s : Subarray) : Except PartError (List Subarray) :=
  if hne : saEmpty s then .ok []
  else if fits (est s) bufs then .ok [s]
  else if h1 : cellCount s ≤ 1 then .error .bufferTooSmall
  else
    match compute_subarray_partitions est bufs (bisectLo s),
        compute_subarray_partitions est bufs (bisectHi s) with
    | .error e, _ => .error e
    | .ok _, .error e => .error e
    | .ok l, .ok r => .ok (l ++ r)
termination_by cellCount s
decreasing_by
  · exact cellCount_bisectLo_lt s (by simpa using hne) (by omega)
  · exact cellCount_bisectHi_lt s (by simpa using hne) (by omega)

/-- Modelled from the spec: `Reader::set_subarray` validates the subarray and
computes the partitions, initializing the read state with partition cursor 0;
a partitioning failure (buffer too small) is propagated as its error. -/
def set_subarray (est : Subarray → List Nat) (bufs : List Nat)
    (s : Subarray) : Except PartError ReadState :=
  match compute_subarray_partitions est bufs s with
  | .error e => .error e
  | .ok parts => .ok ⟨0, s, parts⟩

theorem compute_subarray_partitions_ok_aux (est : Subarray → List Nat)
    (bufs : List Nat) :
    ∀ n s parts, cellCount s ≤ n →
      compute_subarray_partitions est bufs s = .ok parts →
      ∀ p ∈ parts, fits (est p) bufs = true ∧ saEmpty p = false := by
  intro n
  induction n using Nat.strong_induction_on with
  | _ n ih =>
    intro s parts hcc h p hp
    rw [compute_subarray_partitions.eq_def] at h
    by_cases hne : saEmpty s
    · rw [dif_pos hne] at h
      cases h
      simp at hp
    · rw [dif_neg hne] at h
      by_cases hfits : fits (est s) bufs
      · rw [if_pos hfits] at h
        cases h
        rcases List.mem_singleton.mp hp with rfl
        exact ⟨hfits, by simpa using hne⟩
      · rw [if_neg hfits] at h
        by_cases h1 : cellCount s ≤ 1
        · rw [dif_pos h1] at h
          cases h
        · rw [dif_neg h1] at h
          cases heqL : compute_subarray_partitions est bufs (bisectLo s) with
          | error e => rw [heqL] at h; cases h
          | ok l =>
            cases heqR : compute_subarray_partitions est bufs (bisectHi s) with
            | error e => rw [heqL, heqR] at h; cases h
            | ok r =>
              rw [heqL, heqR] at h
              cases h
              have hlo := cellCount_bisectLo_lt s (by simpa using hne) (by omega)
              have hhi := cellCount_bisectHi_lt s (by simpa using hne) (by omega)
              rcases List.mem_append.mp hp with hpl | hpr
              · exact ih (cellCount (bisectLo s)) (by omega) (bisectLo s) l
                  (Nat.le_refl _) heqL p hpl
              · exact ih (cellCount (bisectHi s)) (by omega) (bisectHi s) r
                  (Nat.le_refl _) heqR p hpr

theorem compute_subarray_partitions_ok (est : Subarray → List Nat)
    (bufs : List Nat) (s : Subarray) (parts : List Subarray)
    (h : compute_subarray_partitions est bufs s = .ok parts) :
    ∀ p ∈ parts, fits (est p) bufs = true ∧ saEmpty p = false :=
  compute_subarray_partitions_ok_aux est bufs (cellCount s) s parts
    (Nat.le_refl _) h

/-- C4: `compute_subarray_partitions` only accepts partitions whose estimated
per-attribute result sizes are at most the corresponding buffer sizes
(attribute lists in one-to-one correspondence) and drops every empty
partition; and when a nonempty singleton-cell subarray still exceeds the
buffer capacity, `set_subarray` fails with the buffer-too-small error. -/
theorem compute_subarray_partitions_correct (est : Subarray → List Nat)
    (bufs : List Nat) (s : Subarray) :
    (∀ parts, compute_subarray_partitions est bufs s = .ok parts →
      ∀ p ∈ parts,
        ((est p).length = bufs.length ∧
          ∀ i (hi : i < (est p).length) (hi' : i < bufs.length),
            (est p)[i] ≤ bufs[i]) ∧
        saEmpty p = false) ∧
    (saEmpty s = false → cellCount s = 1 → fits (est s) bufs = false →
      set_subarray est bufs s = .error .bufferTooSmall) := by
  constructor
  · intro parts h p hp
    obtain ⟨hfits, hnemp⟩ := compute_subarray_partitions_ok est bufs s parts h p hp
    refine ⟨?_, hnemp⟩
    simp only [fits, Bool.and_eq_true, beq_iff_eq] at hfits
    exact ⟨hfits.1, (zip_all_le_iff _ _ hfits.1).mp hfits.2⟩
  · intro hne h1 hfits
    have : compute_subarray_partitions est bufs s = .error .bufferTooSmall := by
      rw [compute_subarray_partitions.eq_def, dif_neg (by simp [hne]),
        if_neg (by simp [hfits]), dif_pos (by omega)]
    simp [set_subarray, this]

/- ********************************* -/
/-      SPARSE DEDUP (C2)            -/
/- ********************************* -/

/-- Embeds `struct OverlappingCoords<T>` of `reader.h`: the coordinate value,
the fragment index of the overlapping tile the coordinates belong to (the
`tile_->fragment_idx_` reached through the `tile_` pointer), the position in
the tile, and the validity flag (`invalidate()` is `valid_ := false`). -/
structure OverlappingCoords where
  coords_ : List Int
  frag_idx_ : Nat
  pos_ : Nat
  valid_ : Bool

/-- Whether entry `c`, sitting at position `i` of the coordinate list, wins
deduplication of its coordinate-value group: every other entry with the same
coordinate value comes from a smaller fragment index (ties on the fragment
index broken stably in favor of the earlier entry). -/
def winsAt (l : List OverlappingCoords) (i : Nat) (c : OverlappingCoords) :
    Bool :=
  decide (∀ j, ∀ hj : j < l.length, l[j].coords_ = c.coords_ → j ≠ i →
    (l[j].frag_idx_ < c.frag_idx_ ∨
      (l[j].frag_idx_ = c.frag_idx_ ∧ i < j)))

/-- Walk the list keeping the running absolute position `i`, invalidating
every entry that loses deduplication. -/
def dedupAux (l : List OverlappingCoords) :
    Nat → List OverlappingCoords → List OverlappingCoords
  | _, [] => []
  | i, c :: cs =>
    { c with valid_ := c.valid_ && winsAt l i c } :: dedupAux l (i + 1) cs

/-- Modelled from the spec: the body of `Reader::dedup_coords` is missing
from the snapshot; per the spec, coordinates are grouped by coordinate value
and within a group only the entry from the largest fragment index stays
valid, the rest being invalidated via `invalidate()`. -/
def dedup_coords (l : List OverlappingCoords) : List OverlappingCoords :=
  dedupAux l 0 l

theorem dedupAux_length (l : List OverlappingCoords) (i : Nat)
    (cs : List OverlappingCoords) : (dedupAux l i cs).length = cs.length := by
  induction cs generalizing i with
  | nil => rfl
  | cons c cs ih => simp [dedupAux, ih]

theorem dedupAux_getElem (l : List OverlappingCoords) (i : Nat)
    (cs : List OverlappingCoords) (k : Nat) (hk : k < (dedupAux l i cs).length)
    (hk' : k < cs.length) :
    (dedupAux l i cs)[k] =
      { cs[k] with valid_ := cs[k].valid_ && winsAt l (i + k) cs[k] } := by
  induction cs generalizing i k with
  | nil => simp at hk'
  | cons c cs ih =>
    cases k with
    | zero => simp [dedupAux]
    | succ k =>
      simp only [dedupAux, List.getElem_cons_succ]
      rw [ih (i + 1) k (by simpa [dedupAux_length] using hk')
        (by simpa using hk')]
      have : i + 1 + k = i + (k + 1) := by omega
      rw [this]

theorem dedup_coords_length (l : List OverlappingCoords) :
    (dedup_coords l).length = l.length :=
  dedupAux_length l 0 l

theorem dedup_coords_getElem (l : List OverlappingCoords) (k : Nat)
    (hk : k < (dedup_coords l).length) (hk' : k < l.length) :
    (dedup_coords l)[k] =
      { l[k] with valid_ := l[k].valid_ && winsAt l k l[k] } := by
  have := dedupAux_getElem l 0 l k hk hk'
  simpa using this

theorem winsAt_iff (l : List OverlappingCoords) (i : Nat) (hi : i < l.length)
    (hdist : ∀ a b (ha : a < l.length) (hb : b < l.length),
      l[a].coords_ = l[b].coords_ → l[a].frag_idx_ = l[b].frag_idx_ → a = b) :
    winsAt l i l[i] = true ↔
      ∀ j (hj : j < l.length), l[j].coords_ = l[i].coords_ → j ≠ i →
        l[j].frag_idx_ < l[i].frag_idx_ := by
  rw [winsAt, decide_eq_true_iff]
  constructor
  · intro h j hj hco hne
    rcases h j hj hco hne with hlt | ⟨heq, _⟩
    · exact hlt
    · exact absurd (hdist j i hj hi hco heq) hne
  · intro h j hj hco hne
    exact Or.inl (h j hj hco hne)

/-- C2: for a list of all-valid `OverlappingCoords` whose coordinate groups
hold distinct fragment indices, after `dedup_coords` no two valid entries
share the same coordinate value; an entry stays valid iff it has strictly the
largest fragment index of its coordinate-value group; each coordinate-value
group retains at least one valid entry (together: exactly the largest-index
entry of a group stays valid); and `dedup_coords` changes no coordinate,
fragment index or position, only validity flags. -/
theorem dedup_coords_correct (l : List OverlappingCoords)
    (hvalid : ∀ j (hj : j < l.length), l[j].valid_ = true)
    (hdist : ∀ a b (ha : a < l.length) (hb : b < l.length),
      l[a].coords_ = l[b].coords_ → l[a].frag_idx_ = l[b].frag_idx_ → a = b) :
    (∀ i j (hi : i < (dedup_coords l).length)
        (hj : j < (dedup_coords l).length), i ≠ j →
      (dedup_coords l)[i].valid_ = true → (dedup_coords l)[j].valid_ = true →
      (dedup_coords l)[i].coords_ ≠ (dedup_coords l)[j].coords_) ∧
    (∀ i (hi : i < (dedup_coords l).length) (hi' : i < l.length),
      ((dedup_coords l)[i].valid_ = true ↔
        ∀ j (hj : j < l.length), l[j].coords_ = l[i].coords_ → j ≠ i →
          l[j].frag_idx_ < l[i].frag_idx_)) ∧
    (∀ i (hi : i < l.length), ∃ j, ∃ hj : j < l.length,
      ∃ hj' : j < (dedup_coords l).length,
      l[j].coords_ = l[i].coords_ ∧ (dedup_coords l)[j].valid_ = true) ∧
    (∀ i (hi : i < (dedup_coords l).length) (hi' : i < l.length),
      (dedup_coords l)[i].coords_ = l[i].coords_ ∧
      (dedup_coords l)[i].frag_idx_ = l[i].frag_idx_ ∧
      (dedup_coords l)[i].pos_ = l[i].pos_) := by
  have hlen := dedup_coords_length l
  have hchar : ∀ i (hi : i < (dedup_coords l).length) (hi' : i < l.length),
      ((dedup_coords l)[i].valid_ = true ↔
        ∀ j (hj : j < l.length), l[j].coords_ = l[i].coords_ → j ≠ i →
          l[j].frag_idx_ < l[i].frag_idx_) := by
    intro i hi hi'
    rw [dedup_coords_getElem l i hi hi']
    simp only [hvalid i hi', Bool.true_and]
    exact winsAt_iff l i hi' hdist
  refine ⟨?_, hchar, ?_, ?_⟩
  · intro i j hi hj hne hvi hvj hco
    have hi' : i < l.length := by omega
    have hj' : j < l.length := by omega
    have hco' : l[j].coords_ = l[i].coords_ := by
      have h1 := (dedup_coords_getElem l i hi hi')
      have h2 := (dedup_coords_getElem l j hj hj')
      rw [h1, h2] at hco
      simpa using hco.symm
    have hij := ((hchar i hi hi').mp hvi) j hj' hco' (by omega)
    have hji := ((hchar j hj hj').mp hvj) i hi' (by rw [hco']) (by omega)
    omega
  · intro i hi
    classical
    have hSne : ((Finset.range l.length).filter
        (fun j => ∃ hj : j < l.length, l[j].coords_ = l[i].coords_)).Nonempty := by
      refine ⟨i, ?_⟩
      simp [hi]
    obtain ⟨j, hjmem, hjmax⟩ := Finset.exists_max_image _
      (fun j => if hj : j < l.length then l[j].frag_idx_ else 0) hSne
    simp only [Finset.mem_filter, Finset.mem_range] at hjmem
    obtain ⟨hj, hj2, hjco⟩ := hjmem
    refine ⟨j, hj, by omega, hjco, ?_⟩
    rw [(hchar j (by omega) hj)]
    intro k hk hkco hkne
    have := hjmax k (by
      simp only [Finset.mem_filter, Finset.mem_range]
      refine ⟨hk, hk, ?_⟩
      rw [hkco, hjco])
    simp only [dif_pos hk, dif_pos hj] at this
    rcases Nat.lt_or_ge l[k].frag_idx_ l[j].frag_idx_ with hlt | hge
    · exact hlt
    · have heq : l[k].frag_idx_ = l[j].frag_idx_ := by omega
      exact absurd (hdist k j hk hj (by rw [hkco, hjco]) heq) hkne
  · intro i hi hi'
    rw [dedup_coords_getElem l i hi hi']
    exact ⟨rfl, rfl, rfl⟩

/- ********************************* -/
/-      FIXED-SIZE COPY (C3)         -/
/- ********************************* -/

/-- Embeds `struct OverlappingCellRange` of `reader.h` for a fixed-size
attribute: the source tile (its per-cell attribute values, one abstract value
per cell), or `none` for an empty range to be filled with the fill value, and
the cell range. The range is half-open, `[start_, end_)`, matching the spec's
description of the copy loop. -/
structure FixedCellRange where
  tile_ : Option (List Int)
  start_ : Nat
  end_ : Nat

/-- The cell values a fixed-size range contributes: the tile's cells
`[start_, end_)`, or `end_ - start_` copies of the fill value for an empty
range. -/
def fixedRangeCells (fill : Int) (r : FixedCellRange) : List Int :=
  match r.tile_ with
  | none => List.replicate (r.end_ - r.start_) fill
  | some vals => (vals.drop r.start_).take (r.end_ - r.start_)

/-- One pass of the fixed-size copy loop: `off` is the byte offset already
written into the user buffer. For each range, if its bytes fit in what is
left of the buffer they are appended; otherwise only the whole cells that
fit are appended and copying stops with the incomplete flag set. Returns the
written cell values and the incomplete flag. -/
def copyFixedGo (cellSize : Nat) (fill : Int) (bufSize : Nat) :
    List FixedCellRange → Nat → List Int × Bool
  | [], _ => ([], false)
  | r :: rs, off =>
    let cells := fixedRangeCells fill r
    if off + cells.length * cellSize ≤ bufSize then
      let rest := copyFixedGo cellSize fill bufSize rs
        (off + cells.length * cellSize)
      (cells ++ rest.1, rest.2)
    else
      (cells.take ((bufSize - off) / cellSize), true)

/-- Modelled from the spec: the body of `Reader::copy_fixed_cells` is missing
from the snapshot; per the spec, each range contributes
`(end - start) * cell_size` bytes (fill values for a `none` tile), a range
that does not fit in the remaining user buffer stops the copy at an exact
cell boundary with the query marked incomplete (not an error), and the
caller's buffer-size output is set to the bytes actually written. Returns
(cells written, bytes-written output, incomplete flag). -/
def copy_fixed_cells (cellSize : Nat) (fill : Int) (bufSize : Nat)
    (cell_ranges : List FixedCellRange) : List Int × Nat × Bool :=
  let res := copyFixedGo cellSize fill bufSize cell_ranges 0
  (res.1, res.1.length * cellSize, res.2)

theorem copyFixedGo_bytes_le (cellSize : Nat) (fill : Int) (bufSize : Nat)
    (rs : List FixedCellRange) (off : Nat) (hoff : off ≤ bufSize) :
    off + (copyFixedGo cellSize fill bufSize rs off).1.length * cellSize ≤
      bufSize := by
  induction rs generalizing off with
  | nil => simpa [copyFixedGo]
  | cons r rs ih =>
    simp only [copyFixedGo]
    by_cases hfit :
        off + (fixedRangeCells fill r).length * cellSize ≤ bufSize
    · rw [if_pos hfit]
      simp only [List.length_append]
      have := ih (off + (fixedRangeCells fill r).length * cellSize) hfit
      have hgoal :
          off + ((fixedRangeCells fill r).length +
            (copyFixedGo cellSize fill bufSize rs
              (off + (fixedRangeCells fill r).length * cellSize)).1.length) *
            cellSize =
          off + (fixedRangeCells fill r).length * cellSize +
            (copyFixedGo cellSize fill bufSize rs
              (off + (fixedRangeCells fill r).length * cellSize)).1.length *
              cellSize := by ring
      omega
    · rw [if_neg hfit]
      simp only
      have h1 : ((fixedRangeCells fill r).take
          ((bufSize - off) / cellSize)).length ≤ (bufSize - off) / cellSize := by
        simp [List.length_take]
      have h2 : (bufSize - off) / cellSize * cellSize ≤ bufSize - off :=
        Nat.div_mul_le_self _ _
      have h3 : ((fixedRangeCells fill r).take
          ((bufSize - off) / cellSize)).length * cellSize ≤
          (bufSize - off) / cellSize * cellSize :=
        Nat.mul_le_mul_right _ h1
      omega

theorem copyFixedGo_complete (cellSize : Nat) (fill : Int) (bufSize : Nat)
    (rs : List FixedCellRange) (off : Nat) (hoff : off ≤ bufSize) :
    ((copyFixedGo cellSize fill bufSize rs off).2 = false →
      (copyFixedGo cellSize fill bufSize rs off).1 =
        rs.flatMap (fixedRangeCells fill)) ∧
    ((copyFixedGo cellSize fill bufSize rs off).2 = true →
      (copyFixedGo cellSize fill bufSize rs off).1.length <
        (rs.flatMap (fixedRangeCells fill)).length) := by
  induction rs generalizing off with
  | nil => simp [copyFixedGo]
  | cons r rs ih =>
    simp only [copyFixedGo]
    by_cases hfit :
        off + (fixedRangeCells fill r).length * cellSize ≤ bufSize
    · rw [if_pos hfit]
      constructor
      · intro hinc
        simp only at hinc
        have := (ih (off + (fixedRangeCells fill r).length * cellSize) hfit).1
          hinc
        simp only [List.flatMap_cons, this]
      · intro hinc
        simp only at hinc
        have := (ih (off + (fixedRangeCells fill r).length * cellSize) hfit).2
          hinc
        simp only [List.flatMap_cons, List.length_append]
        omega
    · rw [if_neg hfit]
      constructor
      · intro hinc
        simp at hinc
      · intro _
        simp only [List.flatMap_cons, List.length_append, List.length_take]
        have hcs : 0 < cellSize := by
          by_contra hcs
          have : cellSize = 0 := by omega
          rw [this] at hfit
          omega
        have : (bufSize - off) / cellSize < (fixedRangeCells fill r).length := by
          by_contra hge
          have hge' : (fixedRangeCells fill r).length ≤
              (bufSize - off) / cellSize := by omega
          have := Nat.mul_le_mul_right cellSize hge'
          have h2 : (bufSize - off) / cellSize * cellSize ≤ bufSize - off :=
            Nat.div_mul_le_self _ _
          omega
        omega

/-- C3: the fixed-size copy never writes more bytes than the buffer size (the
reported bytes-written output is at most `bufSize`); the bytes written always
lie at an exact cell boundary (they equal the number of cells written times
`cell_size`); the reported output is exactly the bytes of the cells actually
written; when everything fits the full content of all ranges is written with
the incomplete flag clear, and when it does not fit, the copy stops short of
the full content with the query marked incomplete rather than an error. -/
theorem copy_fixed_cells_correct (cellSize : Nat) (fill : Int)
    (bufSize : Nat) (cell_ranges : List FixedCellRange) :
    ((copy_fixed_cells cellSize fill bufSize cell_ranges).2.1 ≤ bufSize) ∧
    ((copy_fixed_cells cellSize fill bufSize cell_ranges).2.1 =
      (copy_fixed_cells cellSize fill bufSize cell_ranges).1.length *
        cellSize) ∧
    ((copy_fixed_cells cellSize fill bufSize cell_ranges).2.2 = false →
      (copy_fixed_cells cellSize fill bufSize cell_ranges).1 =
        cell_ranges.flatMap (fixedRangeCells fill)) ∧
    ((copy_fixed_cells cellSize fill bufSize cell_ranges).2.2 = true →
      (copy_fixed_cells cellSize fill bufSize cell_ranges).1.length <
        (cell_ranges.flatMap (fixedRangeCells fill)).length) := by
  refine ⟨?_, rfl, ?_, ?_⟩
  · have := copyFixedGo_bytes_le cellSize fill bufSize cell_ranges 0
      (Nat.zero_le _)
    simpa [copy_fixed_cells] using this
  · intro h
    exact (copyFixedGo_complete cellSize fill bufSize cell_ranges 0
      (Nat.zero_le _)).1 h
  · intro h
    exact (copyFixedGo_complete cellSize fill bufSize cell_ranges 0
      (Nat.zero_le _)).2 h

/- ********************************* -/
/-      VARIABLE-SIZE COPY (C6)      -/
/- ********************************* -/

/-- A var-sized attribute's source tile pair: the offsets tile (absolute byte
offsets into the values tile, one per cell) and the values tile (its bytes,
one abstract byte per entry). -/
structure VarTile where
  offsets : List Nat
  values : List Int

/-- A cell range over a var-sized tile (`none` = empty range, fill values).
The range is half-open, `[start_, end_)`. -/
structure VarCellRange where
  tile_ : Option VarTile
  start_ : Nat
  end_ : Nat

/-- Per-cell value sizes derived from the source offsets: the difference of
consecutive offsets, with the tile's total values size for the last cell. -/
def varCellSizes (offs : List Nat) (total : Nat) : List Nat :=
  match offs with
  | [] => []
  | [o] => [total - o]
  | o :: o2 :: rest => (o2 - o) :: varCellSizes (o2 :: rest) total

/-- The per-cell byte lists of a var tile, sliced out of the values tile by
the source offsets (the last cell extends to the end of the values tile). -/
def varTileCells (values : List Int) : List Nat → List (List Int)
  | [] => []
  | [o] => [values.drop o]
  | o :: o2 :: rest => ((values.drop o).take (o2 - o)) :: varTileCells values (o2 :: rest)

/-- The cells a var-sized cell range contributes: the tile's cells
`[start_, end_)`, or `end_ - start_` copies of the fill value bytes. -/
def varRangeCells (fillBytes : List Int) (r : VarCellRange) : List (List Int) :=
  match r.tile_ with
  | none => List.replicate (r.end_ - r.start_) fillBytes
  | some t => ((varTileCells t.values t.offsets).drop r.start_).take (r.end_ - r.start_)

/-- One pass of the var-size copy loop over the flattened cell list. `offW`
and `valW` are the bytes already written into the offsets buffer and the
values buffer. For each cell, the running values-buffer offset `valW` (not
the source offset) is emitted into the offsets buffer (one `uint64`, 8
bytes) and the cell's bytes are appended to the values buffer; if either
buffer would overflow on this cell, copying stops at the previous cell
boundary with the incomplete flag set. -/
def copyVarGo (offCap valCap : Nat) :
    List (List Int) → Nat → Nat → List Nat × List Int × Bool
  | [], _, _ => ([], [], false)
  | c :: cs, offW, valW =>
    if offW + 8 ≤ offCap ∧ valW + c.length ≤ valCap then
      let rest := copyVarGo offCap valCap cs (offW + 8) (valW + c.length)
      (valW :: rest.1, c ++ rest.2.1, rest.2.2)
    else
      ([], [], true)

/-- Modelled from the spec: the body of `Reader::copy_var_cells` is missing
from the snapshot; per the spec, the offsets written into the user offsets
buffer are output-relative running byte offsets into the companion values
buffer, cell value sizes are derived from consecutive source offsets (total
values size for the last cell), and overflow of either buffer stops the copy
at the previous cell boundary with the query marked incomplete. Returns
(offsets written, value bytes written, incomplete flag). -/
def copy_var_cells (offCap valCap : Nat) (fillBytes : List Int)
    (cell_ranges : List VarCellRange) : List Nat × List Int × Bool :=
  copyVarGo offCap valCap (cell_ranges.flatMap (varRangeCells fillBytes)) 0 0

theorem copyVarGo_spec (offCap valCap : Nat) (cs : List (List Int))
    (offW valW : Nat) :
    ((copyVarGo offCap valCap cs offW valW).1.length ≤ cs.length) ∧
    (∀ k (hk : k < (copyVarGo offCap valCap cs offW valW).1.length),
      (copyVarGo offCap valCap cs offW valW).1[k] =
        valW + ((cs.take k).map List.length).sum) ∧
    ((copyVarGo offCap valCap cs offW valW).2.1 =
      (cs.take (copyVarGo offCap valCap cs offW valW).1.length).flatten) ∧
    ((copyVarGo offCap valCap cs offW valW).1 = [] ∨
      offW + 8 * (copyVarGo offCap valCap cs offW valW).1.length ≤ offCap) ∧
    ((copyVarGo offCap valCap cs offW valW).2.1 = [] ∨
      valW + (copyVarGo offCap valCap cs offW valW).2.1.length ≤ valCap) ∧
    ((copyVarGo offCap valCap cs offW valW).2.2 = false ↔
      (copyVarGo offCap valCap cs offW valW).1.length = cs.length) := by
  induction cs generalizing offW valW with
  | nil => simp [copyVarGo]
  | cons c cs ih =>
    by_cases hfit : offW + 8 ≤ offCap ∧ valW + c.length ≤ valCap
    · have heq : copyVarGo offCap valCap (c :: cs) offW valW =
          (valW :: (copyVarGo offCap valCap cs (offW + 8) (valW + c.length)).1,
            c ++ (copyVarGo offCap valCap cs (offW + 8) (valW + c.length)).2.1,
            (copyVarGo offCap valCap cs (offW + 8) (valW + c.length)).2.2) := by
        simp only [copyVarGo]
        rw [if_pos hfit]
      simp only [heq]
      obtain ⟨ih1, ih2, ih3, ih4, ih5, ih6⟩ := ih (offW + 8) (valW + c.length)
      refine ⟨?_, ?_, ?_, ?_, ?_, ?_⟩
      · simp only [List.length_cons]
        omega
      · intro k hk
        cases k with
        | zero => simp
        | succ k =>
          simp only [List.getElem_cons_succ, List.take_succ_cons,
            List.map_cons, List.sum_cons]
          rw [ih2 k (by simpa using hk)]
          omega
      · simp only [List.length_cons, List.take_succ_cons, List.flatten_cons]
        rw [ih3]
      · right
        rcases ih4 with h | h
        · simp only [h, List.length_cons, List.length_nil]
          omega
        · simp only [List.length_cons]
          omega
      · right
        rcases ih5 with h | h
        · simp only [h, List.append_nil, List.length_append]
          have : (copyVarGo offCap valCap cs (offW + 8) (valW + c.length)).2.1.length = 0 := by
            rw [h]
            rfl
          omega
        · simp only [List.length_append]
          omega
      · simp only [List.length_cons]
        rw [ih6]
        omega
    · have heq : copyVarGo offCap valCap (c :: cs) offW valW =
          ([], [], true) := by
        simp only [copyVarGo]
        rw [if_neg hfit]
      simp [heq]

theorem varTileCells_sizes (values : List Int) (offs : List Nat)
    (hmono : offs.Chain' (· ≤ ·)) (hbound : ∀ o ∈ offs, o ≤ values.length) :
    (varTileCells values offs).map List.length = varCellSizes offs values.length := by
  induction offs with
  | nil => simp [varTileCells, varCellSizes]
  | cons o os ih =>
    cases os with
    | nil =>
      simp only [varTileCells, varCellSizes, List.map_cons, List.map_nil]
      rw [List.length_drop]
    | cons o2 rest =>
      simp only [varTileCells, varCellSizes, List.map_cons]
      rw [List.cons.injEq]
      constructor
      · rw [List.length_take, List.length_drop]
        have h1 : o ≤ o2 := (List.chain'_cons.mp hmono).1
        have h2 : o2 ≤ values.length := hbound o2 (by simp)
        omega
      · exact ih (List.chain'_cons.mp hmono).2
          (fun x hx => hbound x (List.mem_cons_of_mem _ hx))

theorem varCellSizes_spec (offs : List Nat) (total : Nat) :
    (varCellSizes offs total).length = offs.length ∧
    (∀ i (hi : i < offs.length) (hi2 : i + 1 < offs.length)
        (hi' : i < (varCellSizes offs total).length),
      (varCellSizes offs total)[i] = offs[i + 1] - offs[i]) ∧
    (∀ i (hi : i < offs.length) (hlast : i + 1 = offs.length)
        (hi' : i < (varCellSizes offs total).length),
      (varCellSizes offs total)[i] = total - offs[i]) := by
  induction offs with
  | nil => simp [varCellSizes]
  | cons o os ih =>
    cases os with
    | nil =>
      refine ⟨by simp [varCellSizes], ?_, ?_⟩
      · intro i hi hi2 hi'
        simp at hi2
      · intro i hi hlast hi'
        have : i = 0 := by simpa using hi
        subst this
        simp [varCellSizes]
    | cons o2 rest =>
      obtain ⟨ihl, ih1, ih2⟩ := ih
      refine ⟨by simpa [varCellSizes] using ihl, ?_, ?_⟩
      · intro i hi hi2 hi'
        cases i with
        | zero => simp [varCellSizes]
        | succ k =>
          simp only [varCellSizes, List.getElem_cons_succ]
          exact ih1 k (by simpa using hi) (by simpa using hi2)
            (by simpa [varCellSizes] using hi')
      · intro i hi hlast hi'
        cases i with
        | zero => simp at hlast
        | succ k =>
          simp only [varCellSizes, List.getElem_cons_succ]
          exact ih2 k (by simpa using hi) (by simpa using hlast)
            (by simpa [varCellSizes] using hi')

/-- C6: the offsets the var-size copy writes are output-relative running byte
offsets into the companion values buffer — the `k`-th written offset is the
total size of the cells written before it, the first written offset being 0
— not the source tile's offsets; the values written are exactly the
concatenation of the cells written, so a stop happens at a cell boundary;
neither buffer's capacity is ever exceeded (8 bytes per offset); the
incomplete flag is clear iff every cell of every range was copied; and the
per-cell sizes a tile contributes are derived as differences of consecutive
source offsets, the last cell taking the tile's total values size. -/
theorem copy_var_cells_correct (offCap valCap : Nat) (fillBytes : List Int)
    (cell_ranges : List VarCellRange) :
    (∀ k (hk : k < (copy_var_cells offCap valCap fillBytes cell_ranges).1.length),
      (copy_var_cells offCap valCap fillBytes cell_ranges).1[k] =
        (((cell_ranges.flatMap (varRangeCells fillBytes)).take k).map
          List.length).sum) ∧
    (∀ h0 : 0 < (copy_var_cells offCap valCap fillBytes cell_ranges).1.length,
      (copy_var_cells offCap valCap fillBytes cell_ranges).1[0] = 0) ∧
    ((copy_var_cells offCap valCap fillBytes cell_ranges).2.1 =
      ((cell_ranges.flatMap (varRangeCells fillBytes)).take
        (copy_var_cells offCap valCap fillBytes cell_ranges).1.length).flatten) ∧
    (8 * (copy_var_cells offCap valCap fillBytes cell_ranges).1.length ≤ offCap ∨
      (copy_var_cells offCap valCap fillBytes cell_ranges).1 = []) ∧
    ((copy_var_cells offCap valCap fillBytes cell_ranges).2.1.length ≤ valCap ∨
      (copy_var_cells offCap valCap fillBytes cell_ranges).2.1 = []) ∧
    ((copy_var_cells offCap valCap fillBytes cell_ranges).2.2 = false ↔
      (copy_var_cells offCap valCap fillBytes cell_ranges).1.length =
        (cell_ranges.flatMap (varRangeCells fillBytes)).length) ∧
    (∀ t : VarTile, t.offsets.Chain' (· ≤ ·) →
      (∀ o ∈ t.offsets, o ≤ t.values.length) →
      (varTileCells t.values t.offsets).map List.length =
        varCellSizes t.offsets t.values.length) := by
  simp only [copy_var_cells]
  obtain ⟨h1, h2, h3, h4, h5, h6⟩ := copyVarGo_spec offCap valCap
    (cell_ranges.flatMap (varRangeCells fillBytes)) 0 0
  refine ⟨?_, ?_, h3, ?_, ?_, h6, ?_⟩
  · intro k hk
    have := h2 k hk
    simpa using this
  · intro h0
    have := h2 0 h0
    simpa using this
  · rcases h4 with h | h
    · exact Or.inr h
    · exact Or.inl (by omega)
  · rcases h5 with h | h
    · exact Or.inr h
    · exact Or.inl (by omega)
  · intro t hmono hbound
    exact varTileCells_sizes t.values t.offsets hmono hbound

/- ********************************* -/
/-      DENSE RANGE MERGE (C1)       -/
/- ********************************* -/

/-- Embeds `struct DenseCellRange<T>` of `reader.h` restricted to one global
tile (the `tile_coords_` field, constant over one merge invocation, is
omitted): the fragment index (`-1` = no fragment, fill value) and the closed
range `[start_, end_]` of linearized positions in the global tile. -/
structure DenseCellRange where
  fragment_idx_ : Int
  start_ : Nat
  end_ : Nat

/-- One fragment's dense cell range iterator, abstracted by the closed cell
ranges it emits over the global tile. -/
abbrev FragRanges := List (Nat × Nat)

/-- Whether a fragment's ranges cover position `p`. -/
def rangesCover (f : FragRanges) (p : Nat) : Bool :=
  f.any (fun r => r.1 ≤ p && p ≤ r.2)

/-- The largest fragment index whose ranges cover `p`, as an index into the
list of fragments (`none` when no fragment covers `p`). -/
def winnerFrom (frags : List FragRanges) (p : Nat) : Option Nat :=
  match frags with
  | [] => none
  | f :: fs =>
    match winnerFrom fs p with
    | some j => some (j + 1)
    | none => if rangesCover f p then some 0 else none

/-- The fragment index to which position `p` is attributed: the largest
fragment index covering `p`, or `-1` when none covers it. -/
def winner (frags : List FragRanges) (p : Nat) : Int :=
  match winnerFrom frags p with
  | some j => (j : Int)
  | none => -1

/-- How many consecutive positions after `pos` (up to `fuel` of them) are
still attributed to `w`. -/
def runLen (frags : List FragRanges) (w : Int) (pos fuel : Nat) : Nat :=
  match fuel with
  | 0 => 0
  | fuel + 1 =>
    if winner frags (pos + 1) = w then runLen frags w (pos + 1) fuel + 1
    else 0

/-- The lockstep walk over `[pos, e]`: emit the maximal prefix of positions
attributed to the winner of `pos`, then continue past it. `fuel` bounds the
recursion; `e + 1 - pos` suffices. -/
def mergeFuel (frags : List FragRanges) :
    Nat → Nat → Nat → List DenseCellRange
  | 0, _, _ => []
  | fuel + 1, pos, e =>
    if pos ≤ e then
      let w := winner frags pos
      let k := runLen frags w pos (e - pos)
      ⟨w, pos, pos + k⟩ :: mergeFuel frags fuel (pos + k + 1) e
    else []

/-- Modelled from the spec: the body of `Reader::compute_dense_cell_ranges`
is missing from the snapshot; per the spec, the per-fragment dense cell range
iterators are walked in lockstep over the global-tile interval
`[start, end]`, at each step attributing the current position to the covering
fragment of largest index (or `-1` when none covers it) and emitting a
`DenseCellRange` for the maximal prefix of positions with the same winner. -/
def compute_dense_cell_ranges (frags : List FragRanges) (start e : Nat) :
    List DenseCellRange :=
  mergeFuel frags (e + 1 - start) start e

/-- How many of the emitted ranges contain position `p`. -/
def countCovering (l : List DenseCellRange) (p : Nat) : Nat :=
  (l.filter (fun r => r.start_ ≤ p && p ≤ r.end_)).length

/-- `l` partitions the interval `[s, e]` in order: the first range starts at
`s`, ranges are nonempty and contiguous, and the last ends at `e`. -/
def isChain (s e : Nat) : List DenseCellRange → Prop
  | [] => e < s
  | r :: rest => r.start_ = s ∧ s ≤ r.end_ ∧ r.end_ ≤ e ∧ isChain (r.end_ + 1) e rest

theorem winnerFrom_none_iff (frags : List FragRanges) (p : Nat) :
    winnerFrom frags p = none ↔
      ∀ f ∈ frags, rangesCover f p = false := by
  induction frags with
  | nil => simp [winnerFrom]
  | cons f fs ih =>
    simp only [winnerFrom]
    cases hw : winnerFrom fs p with
    | some j =>
      simp only
      constructor
      · intro h
        cases h
      · intro h
        have : ∀ g ∈ fs, rangesCover g p = false :=
          fun g hg => h g (List.mem_cons_of_mem _ hg)
        rw [ih.mpr this] at hw
        cases hw
    | none =>
      by_cases hc : rangesCover f p
      · simp only [if_pos hc]
        constructor
        · intro h
          cases h
        · intro h
          have := h f (List.mem_cons_self _ _)
          rw [hc] at this
          cases this
      · simp only [if_neg hc]
        constructor
        · intro _
          intro g hg
          rcases List.mem_cons.mp hg with rfl | hgs
          · simpa using hc
          · exact (ih.mp hw) g hgs
        · intro _
          trivial

theorem winnerFrom_some (frags : List FragRanges) (p : Nat) (j : Nat)
    (h : winnerFrom frags p = some j) :
    ∃ hj : j < frags.length,
      rangesCover frags[j] p = true ∧
      ∀ k (hk : k < frags.length),
        rangesCover frags[k] p = true → k ≤ j := by
  induction frags generalizing j with
  | nil => cases h
  | cons f fs ih =>
    simp only [winnerFrom] at h
    cases hw : winnerFrom fs p with
    | some j0 =>
      rw [hw] at h
      simp only [Option.some.injEq] at h
      subst h
      obtain ⟨hj0, hcov, hmax⟩ := ih j0 hw
      refine ⟨by simpa using Nat.succ_lt_succ hj0, by simpa using hcov, ?_⟩
      intro k hk hcov2
      cases k with
      | zero => omega
      | succ k0 =>
        have hk0 : k0 < fs.length := by simpa using hk
        have hcov2n : rangesCover fs[k0] p = true := by simpa using hcov2
        have := hmax k0 hk0 hcov2n
        omega
    | none =>
      rw [hw] at h
      by_cases hc : rangesCover f p
      · rw [if_pos hc] at h
        simp only [Option.some.injEq] at h
        subst h
        refine ⟨by simp, by simpa using hc, ?_⟩
        intro k hk hcov2
        cases k with
        | zero => omega
        | succ k0 =>
          have hk0 : k0 < fs.length := by simpa using hk
          have hfalse := (winnerFrom_none_iff fs p).mp hw fs[k0]
            (List.getElem_mem hk0)
          have hcov2n : rangesCover fs[k0] p = true := by simpa using hcov2
          rw [hfalse] at hcov2n
          cases hcov2n
      · rw [if_neg hc] at h
        cases h

theorem runLen_le (frags : List FragRanges) (w : Int) (pos fuel : Nat) :
    runLen frags w pos fuel ≤ fuel := by
  induction fuel generalizing pos with
  | zero => simp [runLen]
  | succ fuel ih =>
    simp only [runLen]
    by_cases h : winner frags (pos + 1) = w
    · rw [if_pos h]
      have := ih (pos + 1)
      omega
    · rw [if_neg h]
      omega

theorem runLen_winner (frags : List FragRanges) (w : Int) (pos fuel : Nat)
    (hpos : winner frags pos = w) :
    ∀ q, pos ≤ q → q ≤ pos + runLen frags w pos fuel →
      winner frags q = w := by
  induction fuel generalizing pos with
  | zero =>
    intro q h1 h2
    simp only [runLen] at h2
    have : q = pos := by omega
    subst this
    exact hpos
  | succ fuel ih =>
    intro q h1 h2
    simp only [runLen] at h2
    by_cases h : winner frags (pos + 1) = w
    · rw [if_pos h] at h2
      rcases Nat.eq_or_lt_of_le h1 with rfl | hlt
      · exact hpos
      · exact ih (pos + 1) h q hlt (by omega)
    · rw [if_neg h] at h2
      have : q = pos := by omega
      subst this
      exact hpos

theorem mergeFuel_chain (frags : List FragRanges) (fuel pos e : Nat)
    (hfuel : e + 1 - pos ≤ fuel) :
    isChain pos e (mergeFuel frags fuel pos e) := by
  induction fuel generalizing pos with
  | zero =>
    simp only [mergeFuel, isChain]
    omega
  | succ fuel ih =>
    simp only [mergeFuel]
    by_cases hpe : pos ≤ e
    · rw [if_pos hpe]
      have hk := runLen_le frags (winner frags pos) pos (e - pos)
      refine ⟨rfl, ?_, ?_, ?_⟩
      · show pos ≤ pos + runLen frags (winner frags pos) pos (e - pos)
        omega
      · show pos + runLen frags (winner frags pos) pos (e - pos) ≤ e
        omega
      · exact ih (pos + runLen frags (winner frags pos) pos (e - pos) + 1)
          (by omega)
    · rw [if_neg hpe]
      simp only [isChain]
      omega

theorem chain_count (l : List DenseCellRange) (s e : Nat)
    (hc : isChain s e l) (p : Nat) :
    countCovering l p = if s ≤ p ∧ p ≤ e then 1 else 0 := by
  induction l generalizing s with
  | nil =>
    simp only [isChain] at hc
    rw [if_neg (by omega)]
    rfl
  | cons r rest ih =>
    obtain ⟨hs, hse, hee, hrest⟩ := hc
    have hcount := ih (r.end_ + 1) hrest
    simp only [countCovering, List.filter_cons]
    by_cases hin : r.start_ ≤ p ∧ p ≤ r.end_
    · rw [if_pos (by simp [hin.1, hin.2])]
      simp only [List.length_cons]
      have : countCovering rest p = 0 := by
        rw [hcount, if_neg (by omega)]
      simp only [countCovering] at this
      rw [this, if_pos (by omega)]
    · rw [if_neg (by
        simp only [Bool.and_eq_true, decide_eq_true_eq]
        omega)]
      rw [show (List.filter (fun r => r.start_ ≤ p && p ≤ r.end_) rest).length
          = countCovering rest p from rfl, hcount]
      by_cases hup : r.end_ + 1 ≤ p ∧ p ≤ e
      · rw [if_pos hup, if_pos (by omega)]
      · rw [if_neg hup, if_neg (by omega)]

theorem mergeFuel_attr (frags : List FragRanges) (fuel pos e : Nat) :
    ∀ r ∈ mergeFuel frags fuel pos e, ∀ p, r.start_ ≤ p → p ≤ r.end_ →
      winner frags p = r.fragment_idx_ := by
  induction fuel generalizing pos with
  | zero =>
    intro r hr
    simp [mergeFuel] at hr
  | succ fuel ih =>
    intro r hr p h1 h2
    simp only [mergeFuel] at hr
    by_cases hpe : pos ≤ e
    · rw [if_pos hpe] at hr
      rcases List.mem_cons.mp hr with rfl | hr2
      · have h1n : pos ≤ p := h1
        have h2n : p ≤ pos + runLen frags (winner frags pos) pos (e - pos) := h2
        show winner frags p = winner frags pos
        exact runLen_winner frags (winner frags pos) pos (e - pos) rfl p h1n h2n
      · exact ih _ r hr2 p h1 h2
    · rw [if_neg hpe] at hr
      cases hr

/-- C1: the dense range merge over `[s, e]` emits ranges that cover exactly
`[s, e]`, with no gaps and no overlaps (every position in `[s, e]` lies in
exactly one emitted range, every position outside in none); every position
covered by at least one fragment lies in a range attributed to the largest
covering fragment index, and every position covered by no fragment lies in a
range with `fragment_idx_ = -1`. -/
theorem compute_dense_cell_ranges_correct (frags : List FragRanges)
    (s e : Nat) :
    (∀ p, countCovering (compute_dense_cell_ranges frags s e) p =
      if s ≤ p ∧ p ≤ e then 1 else 0) ∧
    (∀ r ∈ compute_dense_cell_ranges frags s e, ∀ p, r.start_ ≤ p →
      p ≤ r.end_ →
      (r.fragment_idx_ = -1 →
        ∀ f ∈ frags, rangesCover f p = false) ∧
      (∀ j : Nat, r.fragment_idx_ = (j : Int) →
        ∃ hj : j < frags.length,
          rangesCover frags[j] p = true ∧
          ∀ k (hk : k < frags.length),
            rangesCover frags[k] p = true → k ≤ j)) := by
  constructor
  · intro p
    exact chain_count _ s e
      (mergeFuel_chain frags (e + 1 - s) s e (Nat.le_refl _)) p
  · intro r hr p h1 h2
    have hwin := mergeFuel_attr frags (e + 1 - s) s e r hr p h1 h2
    constructor
    · intro hneg
      rw [hneg] at hwin
      cases hwf : winnerFrom frags p with
      | some j =>
        have h0 : winner frags p = (j : Int) := by simp [winner, hwf]
        omega
      | none =>
        exact (winnerFrom_none_iff frags p).mp hwf
    · intro j hj
      rw [hj] at hwin
      cases hwf : winnerFrom frags p with
      | some j0 =>
        have h0 : winner frags p = (j0 : Int) := by simp [winner, hwf]
        have : j0 = j := by omega
        subst this
        exact winnerFrom_some frags p j0 hwf
      | none =>
        have h0 : winner frags p = -1 := by simp [winner, hwf]
        omega

/- ********************************* -/
/-      OVERLAP PLANNER (C7)         -/
/- ********************************* -/

/-- Membership of a coordinate point in a hyper-rectangle, dimension by
dimension. -/
def inRect : List Int → Subarray → Prop
  | [], [] => True
  | x :: xs, q :: qs => q.1 ≤ x ∧ x ≤ q.2 ∧ inRect xs qs
  | _, _ => False

/-- A hyper-rectangle is valid when every dimension's range is nonempty. -/
def validRect (r : Subarray) : Prop :=
  ∀ q ∈ r, q.1 ≤ q.2

/-- Modelled from the spec: the body of `Reader::overlap` is missing from the
snapshot; per its header doc comment it checks whether two hyper-rectangles
overlap (the first component) and whether the first contains the second (the
second component, the `a_contains_b` out-parameter). -/
def overlap (a b : Subarray) : Bool × Bool :=
  ((a.zip b).all (fun q => decide (q.1.1 ≤ q.2.2 ∧ q.2.1 ≤ q.1.2)),
    (a.zip b).all (fun q => decide (q.1.1 ≤ q.2.1 ∧ q.2.2 ≤ q.1.2)))

/-- The per-dimension lower corner of a rectangle. -/
def lows (r : Subarray) : List Int :=
  r.map Prod.fst

theorem inRect_lows (r : Subarray) (hr : validRect r) : inRect (lows r) r := by
  induction r with
  | nil => trivial
  | cons q qs ih =>
    exact ⟨Int.le_refl _, hr q (List.mem_cons_self _ _),
      ih (fun x hx => hr x (List.mem_cons_of_mem _ hx))⟩

theorem overlap_fst_iff (a b : Subarray) (hlen : a.length = b.length)
    (ha : validRect a) (hb : validRect b) :
    (overlap a b).1 = true ↔ ∃ p, inRect p a ∧ inRect p b := by
  induction a generalizing b with
  | nil =>
    cases b with
    | nil =>
      simp only [overlap, List.zip_nil_left, List.all_nil, true_iff]
      exact ⟨[], trivial, trivial⟩
    | cons q qs => simp at hlen
  | cons qa as ih =>
    cases b with
    | nil => simp at hlen
    | cons qb bs =>
      simp only [overlap, List.zip_cons_cons, List.all_cons, Bool.and_eq_true,
        decide_eq_true_eq]
      have ha' : validRect as := fun x hx => ha x (List.mem_cons_of_mem _ hx)
      have hb' : validRect bs := fun x hx => hb x (List.mem_cons_of_mem _ hx)
      have iht := ih bs (by simpa using hlen) ha' hb'
      simp only [overlap] at iht
      constructor
      · rintro ⟨⟨h1, h2⟩, htail⟩
        obtain ⟨p, hpa, hpb⟩ := iht.mp htail
        refine ⟨max qa.1 qb.1 :: p, ⟨le_max_left _ _, ?_, hpa⟩,
          ⟨le_max_right _ _, ?_, hpb⟩⟩
        · exact max_le (ha qa (List.mem_cons_self _ _)) h2
        · exact max_le h1 (hb qb (List.mem_cons_self _ _))
      · rintro ⟨p, hpa, hpb⟩
        cases p with
        | nil => exact absurd hpa (by simp [inRect])
        | cons x xs =>
          obtain ⟨ha1, ha2, hat⟩ := hpa
          obtain ⟨hb1, hb2, hbt⟩ := hpb
          exact ⟨⟨le_trans ha1 hb2, le_trans hb1 ha2⟩,
            iht.mpr ⟨xs, hat, hbt⟩⟩

theorem overlap_snd_iff (a b : Subarray) (hlen : a.length = b.length)
    (hb : validRect b) :
    (overlap a b).2 = true ↔ ∀ p, inRect p b → inRect p a := by
  induction a generalizing b with
  | nil =>
    cases b with
    | nil =>
      simp only [overlap, List.zip_nil_left, List.all_nil, true_iff]
      intro p hp
      cases p with
      | nil => trivial
      | cons x xs => exact absurd hp (by simp [inRect])
    | cons q qs => simp at hlen
  | cons qa as ih =>
    cases b with
    | nil => simp at hlen
    | cons qb bs =>
      simp only [overlap, List.zip_cons_cons, List.all_cons, Bool.and_eq_true,
        decide_eq_true_eq]
      have hb' : validRect bs := fun x hx => hb x (List.mem_cons_of_mem _ hx)
      have iht := ih bs (by simpa using hlen) hb'
      simp only [overlap] at iht
      constructor
      · rintro ⟨⟨h1, h2⟩, htail⟩ p hp
        cases p with
        | nil => exact absurd hp (by simp [inRect])
        | cons x xs =>
          obtain ⟨hb1, hb2, hbt⟩ := hp
          exact ⟨le_trans h1 hb1, le_trans hb2 h2, iht.mp htail xs hbt⟩
      · intro h
        have hlow := inRect_lows bs hb'
        have h1 := h (qb.1 :: lows bs)
          ⟨Int.le_refl _, hb qb (List.mem_cons_self _ _), hlow⟩
        have h2 := h (qb.2 :: lows bs)
          ⟨hb qb (List.mem_cons_self _ _), Int.le_refl _, hlow⟩
        obtain ⟨h1a, _, _⟩ := h1
        obtain ⟨_, h2a, _⟩ := h2
        refine ⟨⟨h1a, h2a⟩, iht.mpr ?_⟩
        intro xs hxs
        have := h (qb.1 :: xs)
          ⟨Int.le_refl _, hb qb (List.mem_cons_self _ _), hxs⟩
        exact this.2.2

/-- The tiles of one fragment (with MBR list `tiles`, the first carrying tile
index `t0`) that overlap the subarray `S`. -/
def tilesOfFrag (S : Subarray) (attrs : List String) (f : Nat) :
    Nat → List Subarray → List OverlappingTile
  | _, [] => []
  | t, mbr :: rest =>
    (if (overlap mbr S).1 then
      [mkOverlappingTile f t attrs (overlap S mbr).2] else [])
      ++ tilesOfFrag S attrs f (t + 1) rest

/-- The overlapping tiles of all fragments, the first carrying fragment index
`f0`. -/
def cotAux (S : Subarray) (attrs : List String) :
    Nat → List (List Subarray) → List OverlappingTile
  | _, [] => []
  | f, tiles :: rest =>
    tilesOfFrag S attrs f 0 tiles ++ cotAux S attrs (f + 1) rest

/-- Modelled from the spec: the body of `Reader::compute_overlapping_tiles`
is missing from the snapshot; per the spec, for each fragment in order and
each of its tiles in order, an `OverlappingTile` is appended iff the tile's
MBR overlaps the query subarray, with `full_overlap` recording whether the
subarray fully contains the MBR. `frags` is the per-fragment list of tile
MBRs drawn from the fragment metadata. -/
def compute_overlapping_tiles (S : Subarray) (attrs : List String)
    (frags : List (List Subarray)) : List OverlappingTile :=
  cotAux S attrs 0 frags

/-- Output order: fragment order outermost, tile order innermost. -/
def tileLt (a b : OverlappingTile) : Prop :=
  a.fragment_idx_ < b.fragment_idx_ ∨
    (a.fragment_idx_ = b.fragment_idx_ ∧ a.tile_idx_ < b.tile_idx_)

theorem tilesOfFrag_mem (S : Subarray) (attrs : List String) (f : Nat) :
    ∀ t0 tiles ot, ot ∈ tilesOfFrag S attrs f t0 tiles ↔
      ∃ k, ∃ hk : k < tiles.length, (overlap tiles[k] S).1 = true ∧
        ot = mkOverlappingTile f (t0 + k) attrs (overlap S tiles[k]).2 := by
  intro t0 tiles
  induction tiles generalizing t0 with
  | nil => simp [tilesOfFrag]
  | cons mbr rest ih =>
    intro ot
    simp only [tilesOfFrag, List.mem_append]
    constructor
    · intro h
      rcases h with h | h
      · by_cases hov : (overlap mbr S).1 = true
        · rw [if_pos hov] at h
          rcases List.mem_singleton.mp h with rfl
          exact ⟨0, by simp, by simpa using hov, by simp⟩
        · rw [if_neg hov] at h
          simp at h
      · obtain ⟨k, hk, hov, hot⟩ := (ih (t0 + 1) ot).mp h
        refine ⟨k + 1, by simpa using Nat.succ_lt_succ hk, by simpa using hov, ?_⟩
        rw [hot]
        have harith : t0 + 1 + k = t0 + (k + 1) := by omega
        simp only [harith, List.getElem_cons_succ]
    · rintro ⟨k, hk, hov, hot⟩
      cases k with
      | zero =>
        left
        rw [if_pos (by simpa using hov)]
        rw [hot]
        simp
      | succ k0 =>
        right
        refine (ih (t0 + 1) ot).mpr ⟨k0, by simpa using hk, by simpa using hov, ?_⟩
        rw [hot]
        have harith : t0 + 1 + k0 = t0 + (k0 + 1) := by omega
        simp only [harith, List.getElem_cons_succ]

theorem cotAux_mem (S : Subarray) (attrs : List String) :
    ∀ f0 frs ot, ot ∈ cotAux S attrs f0 frs ↔
      ∃ i, ∃ hi : i < frs.length, ∃ k, ∃ hk : k < frs[i].length,
        (overlap frs[i][k] S).1 = true ∧
        ot = mkOverlappingTile (f0 + i) k attrs (overlap S frs[i][k]).2 := by
  intro f0 frs
  induction frs generalizing f0 with
  | nil => simp [cotAux]
  | cons tiles rest ih =>
    intro ot
    simp only [cotAux, List.mem_append]
    constructor
    · intro h
      rcases h with h | h
      · obtain ⟨k, hk, hov, hot⟩ := (tilesOfFrag_mem S attrs f0 0 tiles ot).mp h
        refine ⟨0, by simp, k, by simpa using hk, by simpa using hov, ?_⟩
        rw [hot]
        simp
      · obtain ⟨i, hi, k, hk, hov, hot⟩ := (ih (f0 + 1) ot).mp h
        refine ⟨i + 1, by simpa using Nat.succ_lt_succ hi, k,
          by simpa using hk, by simpa using hov, ?_⟩
        rw [hot]
        have harith : f0 + 1 + i = f0 + (i + 1) := by omega
        simp only [harith, List.getElem_cons_succ]
    · rintro ⟨i, hi, k, hk, hov, hot⟩
      cases i with
      | zero =>
        left
        refine (tilesOfFrag_mem S attrs f0 0 tiles ot).mpr
          ⟨k, by simpa using hk, by simpa using hov, ?_⟩
        rw [hot]
        simp
      | succ i0 =>
        right
        refine (ih (f0 + 1) ot).mpr ⟨i0, by simpa using hi, k,
          by simpa using hk, by simpa using hov, ?_⟩
        rw [hot]
        have harith : f0 + 1 + i0 = f0 + (i0 + 1) := by omega
        simp only [harith, List.getElem_cons_succ]

theorem tilesOfFrag_pairwise (S : Subarray) (attrs : List String) (f : Nat)
    (t0 : Nat) (tiles : List Subarray) :
    (tilesOfFrag S attrs f t0 tiles).Pairwise
      (fun a b => a.tile_idx_ < b.tile_idx_) := by
  induction tiles generalizing t0 with
  | nil => simp [tilesOfFrag]
  | cons mbr rest ih =>
    simp only [tilesOfFrag]
    by_cases hov : (overlap mbr S).1 = true
    · rw [if_pos hov]
      simp only [List.singleton_append, List.pairwise_cons]
      refine ⟨?_, ih (t0 + 1)⟩
      intro b hb
      obtain ⟨k, hk, _, hot⟩ := (tilesOfFrag_mem S attrs f (t0 + 1) rest b).mp hb
      rw [hot]
      show t0 < t0 + 1 + k
      omega
    · rw [if_neg hov]
      simpa using ih (t0 + 1)

theorem pairwise_imp_of_mem {α : Type} {l : List α} {R S : α → α → Prop}
    (h : ∀ a ∈ l, ∀ b ∈ l, R a b → S a b) (hp : l.Pairwise R) :
    l.Pairwise S := by
  induction hp with
  | nil => exact List.Pairwise.nil
  | cons hr hp ih =>
    refine List.Pairwise.cons ?_ (ih ?_)
    · intro b hb
      exact h _ (List.mem_cons_self _ _) b (List.mem_cons_of_mem _ hb) (hr b hb)
    · intro a ha b hb hab
      exact h a (List.mem_cons_of_mem _ ha) b (List.mem_cons_of_mem _ hb) hab

theorem cotAux_pairwise (S : Subarray) (attrs : List String) (f0 : Nat)
    (frs : List (List Subarray)) :
    (cotAux S attrs f0 frs).Pairwise tileLt := by
  induction frs generalizing f0 with
  | nil => simp [cotAux]
  | cons tiles rest ih =>
    simp only [cotAux]
    rw [List.pairwise_append]
    refine ⟨?_, ih (f0 + 1), ?_⟩
    · have hp := tilesOfFrag_pairwise S attrs f0 0 tiles
      refine pairwise_imp_of_mem ?_ hp
      intro a ha b hb hab
      obtain ⟨ka, hka, _, hota⟩ := (tilesOfFrag_mem S attrs f0 0 tiles a).mp ha
      obtain ⟨kb, hkb, _, hotb⟩ := (tilesOfFrag_mem S attrs f0 0 tiles b).mp hb
      right
      refine ⟨?_, hab⟩
      rw [hota, hotb]
      rfl
    · intro a ha b hb
      obtain ⟨k, hk, _, hota⟩ := (tilesOfFrag_mem S attrs f0 0 tiles a).mp ha
      obtain ⟨i, hi, k2, hk2, _, hotb⟩ := (cotAux_mem S attrs (f0 + 1) rest b).mp hb
      rw [hota, hotb]
      left
      show f0 < f0 + 1 + i
      omega

theorem mkOverlappingTile_inj (f f' t t' : Nat) (attrs : List String)
    (fo fo' : Bool) :
    mkOverlappingTile f t attrs fo = mkOverlappingTile f' t' attrs fo' ↔
      f = f' ∧ t = t' ∧ fo = fo' := by
  constructor
  · intro h
    exact ⟨congrArg OverlappingTile.fragment_idx_ h,
      congrArg OverlappingTile.tile_idx_ h,
      congrArg OverlappingTile.full_overlap_ h⟩
  · rintro ⟨rfl, rfl, rfl⟩
    rfl

/-- C7: for a valid query subarray and valid fragment tile MBRs of matching
dimensionality, the overlap planner contains an `OverlappingTile` for
`(fragment f, tile t)` with flag `fo` iff `(f, t)` names a real fragment tile
whose MBR intersects the subarray (a common point exists) and `fo` is true
iff the MBR is entirely contained in the subarray; the output is ordered with
fragment order outermost and tile order innermost. -/
theorem compute_overlapping_tiles_correct (S : Subarray)
    (attrs : List String) (frags : List (List Subarray))
    (hS : validRect S)
    (hfr : ∀ ts ∈ frags, ∀ m ∈ ts, validRect m ∧ m.length = S.length) :
    (∀ f t fo, mkOverlappingTile f t attrs fo ∈
        compute_overlapping_tiles S attrs frags ↔
      ∃ hf : f < frags.length, ∃ ht : t < frags[f].length,
        (∃ p, inRect p frags[f][t] ∧ inRect p S) ∧
        (fo = true ↔ ∀ p, inRect p frags[f][t] → inRect p S)) ∧
    (compute_overlapping_tiles S attrs frags).Pairwise tileLt := by
  constructor
  · intro f t fo
    rw [show compute_overlapping_tiles S attrs frags
        = cotAux S attrs 0 frags from rfl, cotAux_mem]
    constructor
    · rintro ⟨i, hi, k, hk, hov, heqt⟩
      obtain ⟨hfi, htk, hfo⟩ :=
        (mkOverlappingTile_inj f (0 + i) t k attrs fo _).mp heqt
      have hif : i = f := by omega
      subst hif
      have hkt : k = t := htk.symm
      subst hkt
      obtain ⟨hm, hlen⟩ := hfr frags[i] (List.getElem_mem hi)
        frags[i][k] (List.getElem_mem hk)
      refine ⟨hi, hk, ?_, ?_⟩
      · exact (overlap_fst_iff frags[i][k] S hlen hm hS).mp hov
      · rw [hfo]
        exact overlap_snd_iff S frags[i][k] hlen.symm hm
    · rintro ⟨hf, ht, hex, hfoiff⟩
      obtain ⟨hm, hlen⟩ := hfr frags[f] (List.getElem_mem hf)
        frags[f][t] (List.getElem_mem ht)
      refine ⟨f, hf, t, ht, ?_, ?_⟩
      · exact (overlap_fst_iff frags[f][t] S hlen hm hS).mpr hex
      · rw [mkOverlappingTile_inj]
        refine ⟨by omega, rfl, ?_⟩
        have hiff := overlap_snd_iff S frags[f][t] hlen.symm hm
        by_cases hcont : ∀ p, inRect p frags[f][t] → inRect p S
        · rw [hfoiff.mpr hcont, hiff.mpr hcont]
        · have h1 : fo = false := by
            cases hfo2 : fo with
            | false => rfl
            | true => exact absurd (hfoiff.mp hfo2) hcont
          have h2 : (overlap S frags[f][t]).2 = false := by
            cases hfo2 : (overlap S frags[f][t]).2 with
            | false => rfl
            | true => exact absurd (hiff.mp hfo2) hcont
          rw [h1, h2]
  · exact cotAux_pairwise S attrs 0 frags

instance instDecidableValidRect (r : Subarray) : Decidable (validRect r) :=
  inferInstanceAs (Decidable (∀ q ∈ r, q.1 ≤ q.2))

instance instDecidableInRect : (p : List Int) → (r : Subarray) →
    Decidable (inRect p r)
  | [], [] => .isTrue trivial
  | [], _ :: _ => .isFalse (fun h => h)
  | _ :: _, [] => .isFalse (fun h => h)
  | x :: xs, q :: qs =>
    have : Decidable (inRect xs qs) := instDecidableInRect xs qs
    inferInstanceAs (Decidable (q.1 ≤ x ∧ x ≤ q.2 ∧ inRect xs qs))

/- ********************************* -/
/-      WITNESSES                    -/
/- ********************************* -/

/-- The sparse-dedup seed case of the spec (E4): fragment 0 writes `(2,2)`,
fragment 1 writes `(2,2)` and `(3,3)`. -/
def dedupWitnessList : List OverlappingCoords :=
  [⟨[2, 2], 0, 0, true⟩, ⟨[2, 2], 1, 0, true⟩, ⟨[3, 3], 1, 1, true⟩]

theorem dedup_coords_correct_witness :
    ((dedup_coords dedupWitnessList).get ⟨1, by decide⟩).valid_ = true := by
  have hd : ∀ a, ∀ ha : a < dedupWitnessList.length,
      ∀ b, ∀ hb : b < dedupWitnessList.length,
      dedupWitnessList[a].coords_ = dedupWitnessList[b].coords_ →
      dedupWitnessList[a].frag_idx_ = dedupWitnessList[b].frag_idx_ →
      a = b := by decide
  have h := dedup_coords_correct dedupWitnessList (by decide)
    (fun a b ha hb => hd a ha b hb)
  have h2 := (h.2.1 1 (by decide) (by decide)).mpr (by decide)
  simpa [List.get_eq_getElem] using h2

/-- A concrete overlap-planner instance: subarray `[1,4]`, fragment 0 with
one fully contained tile MBR `[2,3]`, fragment 1 with one partially
overlapping tile MBR `[0,2]`. -/
def subarrayW : Subarray := [(1, 4)]

/-- The tile MBRs of the two witness fragments. -/
def fragsW : List (List Subarray) := [[[(2, 3)]], [[(0, 2)]]]

theorem compute_overlapping_tiles_correct_witness :
    mkOverlappingTile 1 0 ["a"] false ∈
      compute_overlapping_tiles subarrayW ["a"] fragsW := by
  have h := compute_overlapping_tiles_correct subarrayW ["a"] fragsW
    (by decide) (by decide)
  refine (h.1 1 0 false).mpr
    ⟨by decide, by decide, ⟨[2], by decide, by decide⟩, ?_⟩
  constructor
  · intro hf
    exact Bool.noConfusion hf
  · intro hcont
    have h0 : inRect [0] fragsW[1][0] := by decide
    exact absurd (hcont [0] h0) (by decide)

end TileDB
